import Mathlib

/-!
Verification of the Uniswap V4 address-challenge miner.

The development shallowly embeds the two algorithmic cores of the program,
`create2_addr` (CREATE2-style address derivation) and `compute_score`
(the vanity-scoring function), together with the salt construction, the
per-worker counter stride, and the best-result registry update, all as
executable Lean functions over `Nat` and `List Nat` (bytes are natural
numbers, with masking written out where the machine arithmetic matters).

Because the source calls `tiny_keccak::Sha3::v256()` (the NIST SHA3-256
variant of the Keccak sponge, domain-separation byte `0x06`), while the
CREATE2 scheme is defined over legacy Keccak-256 (padding byte `0x01`),
both variants of the sponge are embedded so that they can be compared.
-/

namespace Miner

/-! ## Keccak-f[1600] and the two sponge variants -/

/-- Mask to the low 64 bits of a lane. -/
def mask64 (n : Nat) : Nat := n % 2 ^ 64

/-- Bitwise complement of a 64-bit lane. -/
def not64 (n : Nat) : Nat := Nat.xor n (2 ^ 64 - 1)

/-- Rotate a 64-bit lane left by `k` positions (`0 ≤ k < 64`). -/
def rotl64 (n k : Nat) : Nat :=
  Nat.lor (Nat.shiftLeft n k % 2 ^ 64) (Nat.shiftRight (n % 2 ^ 64) (64 - k))

/-- Flat index of lane `(x, y)` in the 25-lane state (row-major in `y`). -/
def laneIdx (x y : Nat) : Nat := x % 5 + 5 * (y % 5)

/-- Read lane `(x, y)` of a 25-lane state. -/
def getLane (s : List Nat) (x y : Nat) : Nat := s.getD (laneIdx x y) 0

/-- Keccak rotation offsets as a table of rows indexed by `x`, columns by `y`. -/
def rotTable : List (List Nat) :=
  [[0, 36, 3, 41, 18],
   [1, 44, 10, 45, 2],
   [62, 6, 43, 15, 61],
   [28, 55, 25, 21, 56],
   [27, 20, 39, 8, 14]]

/-- Rotation offset of lane `(x, y)`. -/
def rotOff (x y : Nat) : Nat := (rotTable.getD (x % 5) []).getD (y % 5) 0

/-- Round constants of the first 12 rounds of Keccak-f[1600]. -/
def roundConstantsA : List Nat :=
  [1, 0x8082, 0x800000000000808a, 0x8000000080008000,
   0x808b, 0x80000001, 0x8000000080008081, 0x8000000000008009,
   0x8a, 0x88, 0x80008009, 0x8000000a]

/-- Round constants of the last 12 rounds of Keccak-f[1600]. -/
def roundConstantsB : List Nat :=
  [0x8000808b, 0x800000000000008b, 0x8000000000008089, 0x8000000000008003,
   0x8000000000008002, 0x8000000000000080, 0x800a, 0x800000008000000a,
   0x8000000080008081, 0x8000000000008080, 0x80000001, 0x8000000080008008]

/-- Keccak round constants for the 24 rounds of Keccak-f[1600]. -/
def roundConstants : List Nat := roundConstantsA ++ roundConstantsB

/-- The θ step of a Keccak round. -/
def theta (s : List Nat) : List Nat :=
  let c := fun x => Nat.xor (getLane s x 0) (Nat.xor (getLane s x 1)
    (Nat.xor (getLane s x 2) (Nat.xor (getLane s x 3) (getLane s x 4))))
  let d := fun x => Nat.xor (c ((x + 4) % 5)) (rotl64 (c ((x + 1) % 5)) 1)
  (List.range 25).map (fun i => Nat.xor (s.getD i 0) (d (i % 5)))

/-- The combined ρ and π steps of a Keccak round. -/
def rhoPi (s : List Nat) : List Nat :=
  (List.range 25).map (fun j =>
    let bx := j % 5
    let by2 := j / 5
    let sx := (bx + 3 * by2) % 5
    let sy := bx
    rotl64 (getLane s sx sy) (rotOff sx sy))

/-- The χ step of a Keccak round. -/
def chi (s : List Nat) : List Nat :=
  (List.range 25).map (fun j =>
    let x := j % 5
    let y := j / 5
    Nat.xor (s.getD j 0) (Nat.land (not64 (getLane s (x + 1) y)) (getLane s (x + 2) y)))

/-- One full round of Keccak-f[1600] with round constant `rc`. -/
def keccakRound (s : List Nat) (rc : Nat) : List Nat :=
  match chi (rhoPi (theta s)) with
  | [] => []
  | a :: rest => Nat.xor a rc :: rest

/-- The Keccak-f[1600] permutation: 24 rounds. -/
def keccakF (s : List Nat) : List Nat :=
  roundConstants.foldl keccakRound s

/-- Interpret 8 bytes (little-endian) as a 64-bit lane. -/
def bytesToLane (bs : List Nat) : Nat :=
  bs.foldr (fun b acc => b % 256 + 256 * acc) 0

/-- Serialize a 64-bit lane into 8 little-endian bytes. -/
def laneToBytes (n : Nat) : List Nat :=
  (List.range 8).map (fun j => n / 256 ^ j % 256)

/-- XOR a 136-byte rate block into the first 17 lanes of the state. -/
def absorbBlock (st : List Nat) (block : List Nat) : List Nat :=
  (List.range 25).map (fun i =>
    if i < 17 then Nat.xor (st.getD i 0) (bytesToLane ((block.drop (8 * i)).take 8))
    else st.getD i 0)

/-- Absorb a padded message (length a multiple of 136) block by block. -/
def absorbChunks : Nat → List Nat → List Nat → List Nat
  | 0, st, _ => st
  | fuel + 1, st, msg =>
    if 136 ≤ msg.length then
      absorbChunks fuel (keccakF (absorbBlock st (msg.take 136))) (msg.drop 136)
    else st

/-- Multi-rate padding at rate 136 with domain-separation byte `d`
(`0x06` for NIST SHA3, `0x01` for legacy Keccak). -/
def padMessage (d : Nat) (m : List Nat) : List Nat :=
  let padlen := 136 - m.length % 136
  if padlen = 1 then m ++ [d + 128]
  else m ++ [d] ++ List.replicate (padlen - 2) 0 ++ [128]

/-- The 256-bit Keccak sponge at rate 136 with domain byte `d`:
absorb the padded message and squeeze the first 32 bytes of the state. -/
def spongeHash (d : Nat) (m : List Nat) : List Nat :=
  let p := padMessage d m
  let st := absorbChunks (p.length / 136 + 1) (List.replicate 25 0) p
  ((List.range 4).map (fun i => laneToBytes (st.getD i 0))).foldr (· ++ ·) []

/-- NIST SHA3-256, as computed by `tiny_keccak::Sha3::v256()`. -/
def sha3_256 (m : List Nat) : List Nat := spongeHash 6 m

/-- Legacy Keccak-256 (the hash of EIP-1014 / CREATE2), as computed by
`tiny_keccak::Keccak::v256()`. -/
def keccak256 (m : List Nat) : List Nat := spongeHash 1 m

/-! ## Address derivation (`create2_addr` in `src/main.rs`) -/

/-- Overwrite the bytes of `l` starting at position `st` with `r`
(the model of `buf[st .. st + r.len()].copy_from_slice(&r)`). -/
def setSlice (l : List Nat) (st : Nat) (r : List Nat) : List Nat :=
  l.take st ++ r ++ l.drop (st + r.length)

/-- The address derivation of the source: an 85-byte buffer
`0xFF ‖ deployer ‖ salt ‖ code_hash` is hashed with `Sha3::v256()`
(NIST SHA3-256) and bytes 12..32 of the digest are returned. -/
def create2_addr (address salt code_hash : List Nat) : List Nat :=
  let buf0 := List.replicate 85 0
  let buf1 := setSlice buf0 0 [0xFF]
  let buf2 := setSlice buf1 1 address
  let buf3 := setSlice buf2 21 salt
  let buf := setSlice buf3 53 code_hash
  let out := sha3_256 buf
  (out.drop 12).take 20

/-- The address derivation described by the specification: identical to
`create2_addr` except that the 85-byte buffer is hashed with Keccak-256,
as EIP-1014 (CREATE2) prescribes. -/
def create2_addr_keccak (address salt code_hash : List Nat) : List Nat :=
  let buf0 := List.replicate 85 0
  let buf1 := setSlice buf0 0 [0xFF]
  let buf2 := setSlice buf1 1 address
  let buf3 := setSlice buf2 21 salt
  let buf := setSlice buf3 53 code_hash
  let out := keccak256 buf
  (out.drop 12).take 20

/-! ## The vanity-scoring function (`compute_score` in `src/main.rs`) -/

/-- The mutable state of the scoring loop. -/
structure ScoreState where
  score : Nat
  starting_zeros : Bool
  starting_fours : Bool
  first_four : Bool
  four_counts : Nat
deriving DecidableEq, Repr

/-- The state at loop entry. -/
def initState : ScoreState :=
  { score := 0, starting_zeros := true, starting_fours := true
  , first_four := true, four_counts := 0 }

/-- Nibble `i` of the address: the high half of byte `i / 2` for even `i`,
the low half for odd `i` (`(a[i/2] >> 4) & 0x0F` resp. `a[i/2] & 0x0F`). -/
def nib (a : List Nat) (i : Nat) : Nat :=
  if i % 2 = 0 then a.getD (i / 2) 0 / 16 % 16 else a.getD (i / 2) 0 % 16

/-- Nibble `i` with a checked byte access, mirroring the panic-on-out-of-bounds
indexing `address[i / 2]` of the source. -/
def nibGet (a : List Nat) (i : Nat) : Option Nat :=
  (a[i / 2]?).map (fun b => if i % 2 = 0 then b / 16 % 16 else b % 16)

/-- One iteration of the scoring loop on nibble value `n` at position `i`:
`Sum.inl ()` models the early `return 0` of the disqualification rule,
`Sum.inr` carries the updated state. -/
def scoreStep (i n : Nat) (s : ScoreState) : Sum Unit ScoreState :=
  if s.starting_zeros = true ∧ n = 0 then
    Sum.inr { s with score := s.score + 10 }
  else if s.starting_fours = true then
    if s.first_four = true ∧ n ≠ 4 then Sum.inl ()
    else if n = 4 then
      Sum.inr { score := s.score +
                  (if s.four_counts + 1 = 4 then 40 + (if i = 39 then 20 else 0) else 0) + 1
              , starting_zeros := false, starting_fours := true, first_four := false
              , four_counts := s.four_counts + 1 }
    else
      Sum.inr { score := s.score + (if s.four_counts = 4 then 20 else 0)
              , starting_zeros := false, starting_fours := false, first_four := false
              , four_counts := s.four_counts }
  else
    Sum.inr (if n = 4 then { s with starting_zeros := false, score := s.score + 1 }
             else { s with starting_zeros := false })

/-- The scoring loop: run `scoreStep` for `fuel` further nibbles starting at
position `i`; `none` models an out-of-bounds panic. -/
def scanLoop (a : List Nat) : Nat → Nat → ScoreState → Option (Sum Unit ScoreState)
  | 0, _, s => some (Sum.inr s)
  | fuel + 1, i, s =>
    match nibGet a i with
    | none => none
    | some n =>
      match scoreStep i n s with
      | Sum.inl u => some (Sum.inl u)
      | Sum.inr t => scanLoop a fuel (i + 1) t

/-- `compute_score` of the source: run the 40-nibble scan from the initial
state, then (unless the scan returned 0 early) add 20 if the low nibble of
byte 18 and the high nibble of byte 19 both equal 4. -/
def compute_score (a : List Nat) : Option Nat :=
  match scanLoop a 40 0 initState with
  | none => none
  | some (Sum.inl _) => some 0
  | some (Sum.inr s) =>
    match a[18]?, a[19]? with
    | some b18, some b19 =>
      some (s.score + if b18 % 16 = 4 ∧ b19 / 16 % 16 = 4 then 20 else 0)
    | _, _ => none

/-! ## Salt construction, worker counters and the best-result registry -/

/-- The 8 big-endian bytes of a 64-bit counter (`u64::to_be_bytes`). -/
def u64ToBeBytes (n : Nat) : List Nat :=
  (List.range 8).map (fun j => n / 2 ^ (8 * (7 - j)) % 256)

/-- The salt a worker assembles each iteration: a 32-byte zero buffer whose
bytes 0..20 are overwritten with the submitter address, bytes 20..24 with the
worker's pepper, and bytes 24..32 with the big-endian counter. -/
def mkSalt (submitter pepper : List Nat) (counter : Nat) : List Nat :=
  let s0 := List.replicate 32 0
  let s1 := setSlice s0 0 submitter
  let s2 := setSlice s1 20 pepper
  setSlice s2 24 (u64ToBeBytes counter)

/-- Worker `i` of `N` starts its `u64` counter at `i` and adds `N` each
iteration, wrapping modulo `2 ^ 64`; this is its value after `k` iterations. -/
def workerCounter (i N k : Nat) : Nat := (i + k * N) % 2 ^ 64

/-- The registry update of the main loop: the candidate replaces the stored
pair exactly when its score is strictly greater. -/
def attemptUpdate (best cand : List Nat × Nat) : List Nat × Nat :=
  if best.2 < cand.2 then cand else best

/-- The stored pair after a finite sequence of attempts, starting from the
initial registry contents. -/
def runRegistry (init : List Nat × Nat) (atts : List (List Nat × Nat)) : List Nat × Nat :=
  atts.foldl attemptUpdate init

/-! ## Concrete addresses used as test inputs -/

/-- The all-zero 20-byte address. -/
def zeroAddr : List Nat := List.replicate 20 0

/-- The address `0x0044440000000000000000000000000000000000`. -/
def addr0044 : List Nat :=
  [0x00, 0x44, 0x44, 0, 0, 0, 0, 0, 0, 0, 0, 0, 0, 0, 0, 0, 0, 0, 0, 0]

/-- The address `0x1000000000000000000000000000000000000000`: its first
non-zero nibble is 1, so it is disqualified. -/
def addrDisq : List Nat := 0x10 :: List.replicate 19 0

/-- An address whose first non-zero nibble is 4 and whose nibbles 37 and 38
are both 4, so the fixed end-position bonus fires. -/
def addrBonus : List Nat := 0x40 :: (List.replicate 17 0 ++ [0x04, 0x40])

end Miner

/-! ## Theorems -/

namespace Miner

set_option maxRecDepth 100000

/-- Sanity check of the sponge embedding: the NIST SHA3-256 digest of the
empty message matches the published test vector. -/
theorem sha3_256_empty_vector :
    sha3_256 [] = [0xa7, 0xff, 0xc6, 0xf8, 0xbf, 0x1e, 0xd7, 0x66, 0x51, 0xc1, 0x47, 0x56,
      0xa0, 0x61, 0xd6, 0x62, 0xf5, 0x80, 0xff, 0x4d, 0xe4, 0x3b, 0x49, 0xfa,
      0x82, 0xd8, 0x0a, 0x4b, 0x80, 0xf8, 0x43, 0x4a] := by decide

/-- Sanity check of the sponge embedding: the legacy Keccak-256 digest of the
empty message matches the published test vector. -/
theorem keccak256_empty_vector :
    keccak256 [] = [0xc5, 0xd2, 0x46, 0x01, 0x86, 0xf7, 0x23, 0x3c, 0x92, 0x7e, 0x7d, 0xb2,
      0xdc, 0xc7, 0x03, 0xc0, 0xe5, 0x00, 0xb6, 0x53, 0xca, 0x82, 0x27, 0x3b,
      0x7b, 0xfa, 0xd8, 0x04, 0x5d, 0x85, 0xa4, 0x70] := by decide

/-- C1: the claim says `create2_addr` returns the low 20 bytes of the
Keccak-256 digest of `0xFF ‖ deployer ‖ salt ‖ codeHash`.  The source instead
hashes the buffer with `tiny_keccak::Sha3::v256()`, the NIST SHA3-256 variant
(domain byte `0x06` instead of `0x01`), so already on the all-zero deployer,
salt and code hash the derived address differs from the Keccak-256 derivation
the claim (and EIP-1014) prescribe. -/
theorem create2_addr_differs_from_keccak_derivation :
    create2_addr zeroAddr (List.replicate 32 0) (List.replicate 32 0) ≠
      create2_addr_keccak zeroAddr (List.replicate 32 0) (List.replicate 32 0) := by decide

/-- C2 (counterexample): the scoring function applied to
`0x0044440000000000000000000000000000000000` does not return 86. -/
theorem compute_score_0044_ne_86 : compute_score addr0044 ≠ some 86 := by decide

/-- C2 (amended): the scoring function applied to
`0x0044440000000000000000000000000000000000` returns exactly 84
(20 for the two leading zero nibbles, 1 for each of the four 4s, 40 when the
run of four 4s completes, 20 when the run is broken by the following 0). -/
theorem compute_score_0044_eq_84 : compute_score addr0044 = some 84 := by decide

/-- C4: the all-zero 20-byte address scores exactly 400: every one of the 40
nibbles earns the +10 leading-zero bonus and no 4-related rule fires. -/
theorem compute_score_zero_address_400 : compute_score zeroAddr = some 400 := by decide

/-- Folding `max` over a list never drops below the seed. -/
theorem le_foldl_max (l : List Nat) : ∀ b : Nat, b ≤ l.foldl max b := by
  induction l with
  | nil => intro b; exact le_rfl
  | cons a l ih => intro b; exact le_trans (le_max_left b a) (ih (max b a))

/-- The registry fold both computes the running maximum of the scores and
stores the earliest pair achieving it (the initial contents counting as the
earliest entry). -/
theorem registry_correct_aux (atts : List (List Nat × Nat)) :
    ∀ init : List Nat × Nat,
      (runRegistry init atts).2 = (atts.map Prod.snd).foldl max init.2 ∧
        (init :: atts).find? (fun p => p.2 == (atts.map Prod.snd).foldl max init.2)
          = some (runRegistry init atts) := by
  induction atts with
  | nil =>
    intro init
    refine ⟨rfl, ?_⟩
    simp [runRegistry, List.find?]
  | cons a rest ih =>
    intro init
    have hstep : runRegistry init (a :: rest) = runRegistry (attemptUpdate init a) rest := rfl
    have hm : ((a :: rest).map Prod.snd).foldl max init.2
        = (rest.map Prod.snd).foldl max (max init.2 a.2) := rfl
    by_cases h : init.2 < a.2
    · have hupd : attemptUpdate init a = a := if_pos h
      have hmax : max init.2 a.2 = a.2 := max_eq_right (le_of_lt h)
      obtain ⟨ih1, ih2⟩ := ih a
      have hm2 : ((a :: rest).map Prod.snd).foldl max init.2
          = (rest.map Prod.snd).foldl max a.2 := by rw [hm, hmax]
      refine ⟨?_, ?_⟩
      · rw [hstep, hupd, hm2]; exact ih1
      · have hlt : init.2 < (rest.map Prod.snd).foldl max a.2 :=
          lt_of_lt_of_le h (le_foldl_max _ a.2)
      
        rw [hm2, hstep, hupd]
        rw [List.find?_cons_of_neg _ (by simp [Nat.ne_of_lt hlt])]
        exact ih2
    · have hupd : attemptUpdate init a = init := if_neg h
      have hmax : max init.2 a.2 = init.2 := max_eq_left (le_of_not_lt h)
      obtain ⟨ih1, ih2⟩ := ih init
      have hm2 : ((a :: rest).map Prod.snd).foldl max init.2
          = (rest.map Prod.snd).foldl max init.2 := by rw [hm, hmax]
      refine ⟨?_, ?_⟩
      · rw [hstep, hupd, hm2]; exact ih1
      · rw [hm2, hstep, hupd]
        by_cases hinit : init.2 = (rest.map Prod.snd).foldl max init.2
        · have hfind : (init :: rest).find?
              (fun p => p.2 == (rest.map Prod.snd).foldl max init.2) = some init :=
            List.find?_cons_of_pos _ (by simp only [beq_iff_eq]; exact hinit)
          have : some init = some (runRegistry init rest) := by rw [← ih2, hfind]
          rw [List.find?_cons_of_pos _ (by simp only [beq_iff_eq]; exact hinit), this]
      
        · have hlt : init.2 < (rest.map Prod.snd).foldl max init.2 :=
            lt_of_le_of_ne (le_foldl_max _ init.2) hinit
          have ha2 : a.2 < (rest.map Prod.snd).foldl max init.2 :=
            lt_of_le_of_lt (le_of_not_lt h) hlt
          rw [List.find?_cons_of_neg _ (by simp [Nat.ne_of_lt hlt]),
            List.find?_cons_of_neg _ (by simp [Nat.ne_of_lt ha2])]
          rw [List.find?_cons_of_neg _ (by simp [Nat.ne_of_lt hlt])] at ih2
          exact ih2

/-- C6: starting from `(deployer, 0)`, the registry fold replaces the stored
pair exactly on strict improvement, so after any finite sequence of attempts
the stored score is the maximum of 0 and all attempted scores, and the stored
pair is the earliest entry achieving that maximum (the initial
`(deployer, 0)` counting as earliest when the maximum is 0). -/
theorem registry_tracks_running_max (d : List Nat) (atts : List (List Nat × Nat)) :
    (runRegistry (d, 0) atts).2 = (atts.map Prod.snd).foldl max 0 ∧
      ((d, 0) :: atts).find? (fun p => p.2 == (atts.map Prod.snd).foldl max 0)
        = some (runRegistry (d, 0) atts) :=
  registry_correct_aux atts (d, 0)


/-! ### The scoring loop: invariants and claim theorems -/

theorem nibGet_eq (a : List Nat) (i : Nat) (h : i / 2 < a.length) :
    nibGet a i = some (nib a i) := by
  simp [nibGet, nib, List.getElem?_eq_getElem h, List.getD_eq_getElem?_getD]

theorem scanLoop_zeroPrefix (a : List Nat) :
    ∀ (d fuel i sc fc : Nat) (f ff : Bool),
      (∀ m, i ≤ m → m < i + d → nib a m = 0) →
      (∀ m, i ≤ m → m < i + d → m / 2 < a.length) →
      scanLoop a (d + fuel) i ⟨sc, true, f, ff, fc⟩ =
        scanLoop a fuel (i + d) ⟨sc + 10 * d, true, f, ff, fc⟩ := by
  intro d
  induction d with
  | zero => intro fuel i sc fc f ff _ _; simp
  | succ d ih =>
    intro fuel i sc fc f ff hnib hlen
    have hi : i / 2 < a.length := hlen i le_rfl (by omega)
    have hni : nib a i = 0 := hnib i le_rfl (by omega)
    have harith : d + 1 + fuel = (d + fuel) + 1 := by omega
    rw [harith]
    have hstep : scoreStep i 0 (⟨sc, true, f, ff, fc⟩ : ScoreState) =
        Sum.inr ⟨sc + 10, true, f, ff, fc⟩ := by
      simp [scoreStep]
    rw [show scanLoop a ((d + fuel) + 1) i ⟨sc, true, f, ff, fc⟩ =
        scanLoop a (d + fuel) (i + 1) ⟨sc + 10, true, f, ff, fc⟩ by
      simp only [scanLoop, nibGet_eq a i hi, hni, hstep]]
    rw [ih fuel (i + 1) (sc + 10) fc f ff
      (fun m hm1 hm2 => hnib m (by omega) (by omega))
      (fun m hm1 hm2 => hlen m (by omega) (by omega))]
    have : sc + 10 + 10 * d = sc + 10 * (d + 1) := by ring
    rw [this, show i + 1 + d = i + (d + 1) by omega]

theorem scanLoop_disqualify (a : List Nat) (fuel i : Nat) (sc fc : Nat) (z : Bool)
    (hlen : i / 2 < a.length) (h0 : nib a i ≠ 0) (h4 : nib a i ≠ 4) :
    scanLoop a (fuel + 1) i ⟨sc, z, true, true, fc⟩ = some (Sum.inl ()) := by
  have hstep : scoreStep i (nib a i) (⟨sc, z, true, true, fc⟩ : ScoreState) = Sum.inl () := by
    simp [scoreStep, h0, h4]
  simp only [scanLoop, nibGet_eq a i hlen, hstep]

theorem scanLoop_firstFour (a : List Nat) (fuel i : Nat) (sc : Nat) (z : Bool)
    (hlen : i / 2 < a.length) (h4 : nib a i = 4) :
    scanLoop a (fuel + 1) i ⟨sc, z, true, true, 0⟩ =
      scanLoop a fuel (i + 1) ⟨sc + 1, false, true, false, 1⟩ := by
  have hstep : scoreStep i 4 (⟨sc, z, true, true, 0⟩ : ScoreState) =
      Sum.inr ⟨sc + 1, false, true, false, 1⟩ := by
    simp [scoreStep]
  simp only [scanLoop, nibGet_eq a i hlen, h4, hstep]

theorem scoreStep_notFirst (i n : Nat) (s : ScoreState) (h : s.first_four = false) :
    ∃ t, scoreStep i n s = Sum.inr t ∧ s.score ≤ t.score ∧ t.first_four = false := by
  obtain ⟨sc, z, f, ff, fc⟩ := s
  simp only at h
  subst h
  by_cases h1 : z = true ∧ n = 0
  · have hstep : scoreStep i n (⟨sc, z, f, false, fc⟩ : ScoreState) =
        Sum.inr ⟨sc + 10, z, f, false, fc⟩ := by
      simp only [scoreStep]
      rw [if_pos (by exact h1)]
    exact ⟨_, hstep, by dsimp only; omega, rfl⟩
  · by_cases h2 : f = true
    · by_cases h3 : n = 4
      · have hstep : scoreStep i n (⟨sc, z, f, false, fc⟩ : ScoreState) =
            Sum.inr ⟨sc + (if fc + 1 = 4 then 40 + (if i = 39 then 20 else 0) else 0) + 1,
              false, true, false, fc + 1⟩ := by
          simp [scoreStep, h1, h2, h3]
        exact ⟨_, hstep, by dsimp only; split_ifs <;> omega, rfl⟩
      · have hstep : scoreStep i n (⟨sc, z, f, false, fc⟩ : ScoreState) =
            Sum.inr ⟨sc + (if fc = 4 then 20 else 0), false, false, false, fc⟩ := by
          simp [scoreStep, h1, h2, h3]
        exact ⟨_, hstep, by dsimp only; split_ifs <;> omega, rfl⟩
    · by_cases h3 : n = 4
      · have hstep : scoreStep i n (⟨sc, z, f, false, fc⟩ : ScoreState) =
            Sum.inr ⟨sc + 1, false, f, false, fc⟩ := by
          simp [scoreStep, h1, h2, h3]
        exact ⟨_, hstep, by dsimp only; omega, rfl⟩
      · have hstep : scoreStep i n (⟨sc, z, f, false, fc⟩ : ScoreState) =
            Sum.inr ⟨sc, false, f, false, fc⟩ := by
          simp [scoreStep, h1, h2, h3]
        exact ⟨_, hstep, le_rfl, rfl⟩

theorem scoreStep_le (i n : Nat) (s t : ScoreState) (h : scoreStep i n s = Sum.inr t) :
    t.score ≤ s.score + 61 := by
  obtain ⟨sc, z, f, ff, fc⟩ := s
  unfold scoreStep at h
  by_cases h1 : z = true ∧ n = 0
  · rw [if_pos (by exact h1)] at h
    injection h with h
    subst h
    dsimp only
    omega
  · rw [if_neg (by exact h1)] at h
    by_cases h2 : f = true
    · rw [if_pos (by exact h2)] at h
      by_cases h3 : ff = true ∧ n ≠ 4
      · rw [if_pos (by exact h3)] at h
        cases h
      · rw [if_neg (by exact h3)] at h
        by_cases h4 : n = 4
        · rw [if_pos h4] at h
          injection h with h
          subst h
          dsimp only
          split_ifs <;> omega
        · rw [if_neg h4] at h
          injection h with h
          subst h
          dsimp only
          split_ifs <;> omega
    · rw [if_neg (by exact h2)] at h
      by_cases h4 : n = 4
      · rw [if_pos h4] at h
        injection h with h
        subst h
        dsimp only
        omega
      · rw [if_neg h4] at h
        injection h with h
        subst h
        dsimp only
        omega

theorem scanLoop_mono (a : List Nat) (ha : a.length = 20) :
    ∀ (fuel i : Nat) (s : ScoreState), i + fuel = 40 → s.first_four = false →
      ∃ t, scanLoop a fuel i s = some (Sum.inr t) ∧ s.score ≤ t.score := by
  intro fuel
  induction fuel with
  | zero => intro i s _ _; exact ⟨s, rfl, le_rfl⟩
  | succ fuel ih =>
    intro i s hi hff
    have hlen : i / 2 < a.length := by rw [ha]; omega
    obtain ⟨t1, hstep, hle, hff1⟩ := scoreStep_notFirst i (nib a i) s hff
    obtain ⟨t2, hrec, hle2⟩ := ih (i + 1) t1 (by omega) hff1
    refine ⟨t2, ?_, le_trans hle hle2⟩
    simp only [scanLoop, nibGet_eq a i hlen, hstep, hrec]

theorem scanLoop_total (a : List Nat) (ha : a.length = 20) :
    ∀ (fuel i : Nat) (s : ScoreState), i + fuel = 40 →
      ∃ r, scanLoop a fuel i s = some r ∧
        ∀ t, r = Sum.inr t → t.score ≤ s.score + 61 * fuel := by
  intro fuel
  induction fuel with
  | zero =>
    intro i s _
    exact ⟨Sum.inr s, rfl, fun t ht => by cases ht; omega⟩
  | succ fuel ih =>
    intro i s hi
    have hlen : i / 2 < a.length := by rw [ha]; omega
    cases hstep : scoreStep i (nib a i) s with
    | inl u =>
      refine ⟨Sum.inl u, ?_, fun t ht => by cases ht⟩
      simp only [scanLoop, nibGet_eq a i hlen, hstep]
    | inr t1 =>
      obtain ⟨r, hrec, hb⟩ := ih (i + 1) t1 (by omega)
      refine ⟨r, ?_, fun t ht => ?_⟩
      · simp only [scanLoop, nibGet_eq a i hlen, hstep, hrec]
      · have h1 : t1.score ≤ s.score + 61 := scoreStep_le i (nib a i) s t1 hstep
        have h2 : t.score ≤ t1.score + 61 * fuel := hb t ht
        calc t.score ≤ t1.score + 61 * fuel := h2
          _ ≤ s.score + 61 + 61 * fuel := by omega
          _ = s.score + 61 * (fuel + 1) := by ring

theorem compute_score_of_inl (a : List Nat)
    (h : scanLoop a 40 0 initState = some (Sum.inl ())) :
    compute_score a = some 0 := by
  unfold compute_score
  rw [h]

theorem compute_score_of_inr (a : List Nat) (ha : a.length = 20) (s : ScoreState)
    (h : scanLoop a 40 0 initState = some (Sum.inr s)) :
    compute_score a = some (s.score + if nib a 37 = 4 ∧ nib a 38 = 4 then 20 else 0) := by
  unfold compute_score
  rw [h]
  have h18 : (18 : Nat) < a.length := by omega
  have h19 : (19 : Nat) < a.length := by omega
  rw [List.getElem?_eq_getElem h18, List.getElem?_eq_getElem h19]
  have hn37 : nib a 37 = a[18] % 16 := by
    simp [nib, List.getD_eq_getElem?_getD, List.getElem?_eq_getElem h18]
  have hn38 : nib a 38 = a[19] / 16 % 16 := by
    simp [nib, List.getD_eq_getElem?_getD, List.getElem?_eq_getElem h19]
  rw [hn37, hn38]

theorem initState_eq : initState = ⟨0, true, true, true, 0⟩ := rfl

theorem score_zero_of_disq_aux (a : List Nat) (ha : a.length = 20) (k : Nat) (hk : k < 40)
    (hzero : ∀ m, m < k → nib a m = 0) (h0 : nib a k ≠ 0) (h4 : nib a k ≠ 4) :
    compute_score a = some 0 := by
  apply compute_score_of_inl
  have hzp := scanLoop_zeroPrefix a k ((40 - k - 1) + 1) 0 0 0 true true
    (fun m hm1 hm2 => hzero m (by omega))
    (fun m hm1 hm2 => by rw [ha]; omega)
  rw [initState_eq, show (40 : Nat) = k + ((40 - k - 1) + 1) by omega, hzp]
  simp only [Nat.zero_add]
  exact scanLoop_disqualify a (40 - k - 1) k (10 * k) 0 true (by rw [ha]; omega) h0 h4

theorem scanLoop_completes_aux (a : List Nat) (ha : a.length = 20)
    (hnd : ¬ ∃ k, k < 40 ∧ (∀ m, m < k → nib a m = 0) ∧ nib a k ≠ 0 ∧ nib a k ≠ 4) :
    ∃ t, scanLoop a 40 0 initState = some (Sum.inr t) ∧ 1 ≤ t.score := by
  by_cases hall : ∀ m, m < 40 → nib a m = 0
  · have hzp := scanLoop_zeroPrefix a 40 0 0 0 0 true true
      (fun m hm1 hm2 => hall m (by omega)) (fun m hm1 hm2 => by rw [ha]; omega)
    rw [initState_eq]
    exact ⟨⟨0 + 10 * 40, true, true, true, 0⟩, hzp.trans rfl, by dsimp only; omega⟩
  · push_neg at hall
    obtain ⟨m0, hm0lt, hm0⟩ := hall
    have hex : ∃ m, nib a m ≠ 0 := ⟨m0, hm0⟩
    have hkne : nib a (Nat.find hex) ≠ 0 := Nat.find_spec hex
    have hkmin : ∀ m, m < Nat.find hex → nib a m = 0 :=
      fun m hm => not_not.mp (Nat.find_min hex hm)
    have hklt : Nat.find hex < 40 := lt_of_le_of_lt (Nat.find_min' hex hm0) hm0lt
    have hk4 : nib a (Nat.find hex) = 4 := by
      by_contra hk4
      exact hnd ⟨Nat.find hex, hklt, hkmin, hkne, hk4⟩
    have hzp := scanLoop_zeroPrefix a (Nat.find hex) ((40 - Nat.find hex - 1) + 1) 0 0 0 true true
      (fun m hm1 hm2 => hkmin m (by omega)) (fun m hm1 hm2 => by rw [ha]; omega)
    have hff := scanLoop_firstFour a (40 - Nat.find hex - 1) (0 + Nat.find hex)
      (0 + 10 * Nat.find hex) true (by rw [ha]; omega) (by simpa using hk4)
    obtain ⟨t, hrec, hle⟩ := scanLoop_mono a ha (40 - Nat.find hex - 1) (0 + Nat.find hex + 1)
      ⟨0 + 10 * Nat.find hex + 1, false, true, false, 1⟩ (by omega) rfl
    refine ⟨t, ?_, ?_⟩
    · rw [initState_eq, show (40 : Nat) = Nat.find hex + ((40 - Nat.find hex - 1) + 1) by omega,
        hzp, hff, hrec]
    · dsimp only at hle
      omega

theorem compute_score_eq_zero_iff_aux (a : List Nat) (ha : a.length = 20) :
    compute_score a = some 0 ↔
      ∃ k, k < 40 ∧ (∀ m, m < k → nib a m = 0) ∧ nib a k ≠ 0 ∧ nib a k ≠ 4 := by
  constructor
  · intro h
    by_contra hnd
    obtain ⟨t, hscan, hge⟩ := scanLoop_completes_aux a ha hnd
    rw [compute_score_of_inr a ha t hscan] at h
    have h2 : t.score + (if nib a 37 = 4 ∧ nib a 38 = 4 then 20 else 0) = 0 := Option.some.inj h
    split_ifs at h2
    all_goals omega
  · rintro ⟨k, hk, hz, h0, h4⟩
    exact score_zero_of_disq_aux a ha k hk hz h0 h4

/-- C3: if the first non-zero nibble of a 20-byte address (scanning the 40
nibbles most-significant first) is not 4, `compute_score` returns exactly 0,
regardless of all remaining nibbles — in particular the fixed end-position
+20 check never fires for such an address. -/
theorem compute_score_disqualified_zero (a : List Nat) (ha : a.length = 20) (k : Nat)
    (hk : k < 40) (hzero : ∀ m, m < k → nib a m = 0) (h0 : nib a k ≠ 0) (h4 : nib a k ≠ 4) :
    compute_score a = some 0 :=
  score_zero_of_disq_aux a ha k hk hzero h0 h4

/-- C3 witness: `0x1000000000000000000000000000000000000000` is disqualified
at nibble 0 and scores 0. -/
theorem compute_score_disqualified_zero_witness :
    (addrDisq.length = 20 ∧ nib addrDisq 0 ≠ 0 ∧ nib addrDisq 0 ≠ 4) ∧
      compute_score addrDisq = some 0 :=
  ⟨⟨by decide, by decide, by decide⟩,
    compute_score_disqualified_zero addrDisq (by decide) 0 (by decide)
      (fun m hm => absurd hm (Nat.not_lt_zero m)) (by decide) (by decide)⟩

/-- C5: for every 20-byte address not disqualified by the
first-nibble-after-zeros rule, the 40-nibble scan completes with some state
`s`, and the final score adds exactly +20 to `s.score` precisely when the low
nibble of byte 18 (nibble 37) and the high nibble of byte 19 (nibble 38) both
equal 4; no other trailing nibble enters this final bonus. -/
theorem compute_score_final_bonus (a : List Nat) (ha : a.length = 20)
    (hnd : ¬ ∃ k, k < 40 ∧ (∀ m, m < k → nib a m = 0) ∧ nib a k ≠ 0 ∧ nib a k ≠ 4) :
    ∃ s, scanLoop a 40 0 initState = some (Sum.inr s) ∧
      compute_score a = some (s.score + if nib a 37 = 4 ∧ nib a 38 = 4 then 20 else 0) := by
  obtain ⟨t, hscan, hge⟩ := scanLoop_completes_aux a ha hnd
  exact ⟨t, hscan, compute_score_of_inr a ha t hscan⟩

/-- C5 witness: on `addrBonus` the scan completes and the final bonus is
added according to nibbles 37 and 38. -/
theorem compute_score_final_bonus_witness :
    ∃ s, scanLoop addrBonus 40 0 initState = some (Sum.inr s) ∧
      compute_score addrBonus =
        some (s.score + if nib addrBonus 37 = 4 ∧ nib addrBonus 38 = 4 then 20 else 0) :=
  compute_score_final_bonus addrBonus (by decide) (by
    rintro ⟨k, hk, hz, h0, h4⟩
    rcases Nat.eq_zero_or_pos k with rfl | hpos
    · exact h4 (by decide)
    · exact absurd (hz 0 hpos) (by decide))

/-- C9: on every 20-byte address `compute_score` performs no out-of-bounds
access (it returns `some`, never the `none` that models an indexing panic)
and the resulting score is below `2 ^ 32`, so the `u32` accumulator cannot
overflow and the function never panics. -/
theorem compute_score_total_no_overflow (a : List Nat) (ha : a.length = 20) :
    ∃ n, compute_score a = some n ∧ n < 2 ^ 32 := by
  obtain ⟨r, hr, hb⟩ := scanLoop_total a ha 40 0 initState rfl
  cases r with
  | inl u =>
    cases u
    exact ⟨0, compute_score_of_inl a hr, by norm_num⟩
  | inr s =>
    have hs : s.score ≤ initState.score + 61 * 40 := hb s rfl
    have hinit : initState.score = 0 := rfl
    have hbonus : (if nib a 37 = 4 ∧ nib a 38 = 4 then 20 else 0) ≤ 20 := by split_ifs <;> omega
    have h32 : (2 : Nat) ^ 32 = 4294967296 := by norm_num
    exact ⟨_, compute_score_of_inr a ha s hr, by omega⟩

/-- C9 witness: the all-zero address evaluates to a defined score below
`2 ^ 32`. -/
theorem compute_score_total_no_overflow_witness :
    zeroAddr.length = 20 ∧ ∃ n, compute_score zeroAddr = some n ∧ n < 2 ^ 32 :=
  ⟨by decide, compute_score_total_no_overflow zeroAddr (by decide)⟩

/-- C10: `compute_score` returns 0 exactly when the address has a non-zero
nibble and its first non-zero nibble is not 4; equivalently, every address
that passes the disqualification check — including the all-zero address —
scores at least 1. -/
theorem compute_score_zero_iff_disqualified (a : List Nat) (ha : a.length = 20) :
    compute_score a = some 0 ↔
      ∃ k, k < 40 ∧ (∀ m, m < k → nib a m = 0) ∧ nib a k ≠ 0 ∧ nib a k ≠ 4 :=
  compute_score_eq_zero_iff_aux a ha

/-- C10 witness: the characterization instantiated at the all-zero
address. -/
theorem compute_score_zero_iff_disqualified_witness :
    compute_score zeroAddr = some 0 ↔
      ∃ k, k < 40 ∧ (∀ m, m < k → nib zeroAddr m = 0) ∧
        nib zeroAddr k ≠ 0 ∧ nib zeroAddr k ≠ 4 :=
  compute_score_zero_iff_disqualified zeroAddr (by decide)

/-! ### Salt layout and worker counters -/

theorem u64ToBeBytes_length (n : Nat) : (u64ToBeBytes n).length = 8 := by
  simp [u64ToBeBytes]

theorem mkSalt_eq (submitter pepper : List Nat) (c : Nat)
    (hs : submitter.length = 20) (hp : pepper.length = 4) :
    mkSalt submitter pepper c = submitter ++ pepper ++ u64ToBeBytes c := by
  have h1 : setSlice (List.replicate 32 0) 0 submitter
      = submitter ++ List.replicate 12 0 := by
    unfold setSlice
    simp [hs, List.drop_replicate]
  have h2 : setSlice (submitter ++ List.replicate 12 0) 20 pepper
      = submitter ++ (pepper ++ List.replicate 8 0) := by
    unfold setSlice
    rw [hp, List.take_left' hs,
      show (20 : Nat) + 4 = submitter.length + 4 by rw [hs], List.drop_append]
    simp [List.drop_replicate]
  have h3 : setSlice (submitter ++ (pepper ++ List.replicate 8 0)) 24 (u64ToBeBytes c)
      = (submitter ++ pepper) ++ u64ToBeBytes c := by
    unfold setSlice
    have hlen : (submitter ++ pepper).length = 24 := by simp [hs, hp]
    rw [u64ToBeBytes_length, ← List.append_assoc, List.take_left' hlen,
      show (24 : Nat) + 8 = (submitter ++ pepper).length + 8 by rw [hlen], List.drop_append]
    simp [List.drop_replicate]
  show setSlice (setSlice (setSlice (List.replicate 32 0) 0 submitter) 20 pepper) 24
      (u64ToBeBytes c) = submitter ++ pepper ++ u64ToBeBytes c
  rw [h1, h2, h3]

/-- C7: every salt a worker constructs carries the submitter address
unmodified in bytes 0..20, the worker's pepper in bytes 20..24, and the
counter as 8 big-endian bytes in bytes 24..32. -/
theorem salt_layout (submitter pepper : List Nat) (c : Nat)
    (hs : submitter.length = 20) (hp : pepper.length = 4) :
    (mkSalt submitter pepper c).take 20 = submitter ∧
      ((mkSalt submitter pepper c).drop 20).take 4 = pepper ∧
      (mkSalt submitter pepper c).drop 24 = u64ToBeBytes c := by
  rw [mkSalt_eq submitter pepper c hs hp, List.append_assoc]
  refine ⟨List.take_left' hs, ?_, ?_⟩
  · rw [List.drop_left' hs]
    exact List.take_left' hp
  · have hlen : (submitter ++ pepper).length = 24 := by simp [hs, hp]
    rw [← List.append_assoc, List.drop_left' hlen]

/-- C7 witness: the layout at a concrete submitter, pepper and counter. -/
theorem salt_layout_witness :
    ((List.replicate 20 1 : List Nat).length = 20 ∧ ([2, 3, 4, 5] : List Nat).length = 4) ∧
      ((mkSalt (List.replicate 20 1) [2, 3, 4, 5] 258).take 20 = List.replicate 20 1 ∧
        ((mkSalt (List.replicate 20 1) [2, 3, 4, 5] 258).drop 20).take 4 = [2, 3, 4, 5] ∧
        (mkSalt (List.replicate 20 1) [2, 3, 4, 5] 258).drop 24 = u64ToBeBytes 258) :=
  ⟨⟨by decide, by decide⟩,
    salt_layout (List.replicate 20 1) [2, 3, 4, 5] 258 (by decide) (by decide)⟩

/-- C8 (counterexample): with the wrapping 64-bit counters of the source,
distinct workers can collide: with 3 workers, worker 0 reaches counter value
1 after 12297829382473034411 iterations, the same value worker 1 starts
with. -/
theorem worker_counters_collide :
    ¬ ∀ (N i j k l : Nat), i < N → j < N → i ≠ j →
        workerCounter i N k ≠ workerCounter j N l := by
  intro h
  exact h 3 0 1 12297829382473034411 0 (by norm_num) (by norm_num) (by norm_num) (by decide)

/-- C8 (amended): as long as no counter has wrapped modulo `2 ^ 64`,
counters of distinct workers never collide. -/
theorem worker_counters_distinct (N i j k l : Nat) (hi : i < N) (hj : j < N) (hij : i ≠ j)
    (hk : i + k * N < 2 ^ 64) (hl : j + l * N < 2 ^ 64) :
    workerCounter i N k ≠ workerCounter j N l := by
  unfold workerCounter
  rw [Nat.mod_eq_of_lt hk, Nat.mod_eq_of_lt hl]
  intro heq
  apply hij
  have h1 : (i + k * N) % N = (j + l * N) % N := by rw [heq]
  rwa [Nat.add_mul_mod_self_right, Nat.add_mul_mod_self_right,
    Nat.mod_eq_of_lt hi, Nat.mod_eq_of_lt hj] at h1

/-- C8 witness: two workers of a pool of 2 at concrete iteration counts. -/
theorem worker_counters_distinct_witness :
    ((0 : Nat) < 2 ∧ (1 : Nat) < 2 ∧ (0 : Nat) ≠ 1 ∧
        0 + 5 * 2 < 2 ^ 64 ∧ 1 + 7 * 2 < 2 ^ 64) ∧
      workerCounter 0 2 5 ≠ workerCounter 1 2 7 :=
  ⟨⟨by norm_num, by norm_num, by norm_num, by norm_num, by norm_num⟩,
    worker_counters_distinct 2 0 1 5 7 (by norm_num) (by norm_num) (by norm_num)
      (by norm_num) (by norm_num)⟩


end Miner
